import Mathlib

/-!
Verification of the natural-language specification of the qiskit-nature
`SpinOp` term-algebra engine (spec.md sections 3, 4.2, 4.3, 4.4, 4.5).

The engine's implementation files (`qiskit_nature/second_q/operators/spin_op.py`
and its base class `sparse_label_op.py`) are not present under `src/`; only the
behavioural test-suite `src/test/second_q/operators/test_spin_op.py` is.  All
definitions below are therefore modelled from the spec, with the concrete
input/output pairs asserted by that test file taken as the authority wherever
the spec's prose and the test assertions disagree.

Coefficients are modelled as Gaussian integers (`Cx`): every concrete complex
value appearing in the deciding tests is a Gaussian integer, so this is an
exact, decidable model of the coefficient arithmetic the code performs on
them.  An operator's label-to-value
dictionary is modelled as an insertion-ordered association list with distinct
keys, with Python's `d[k] = v` and `d[k] += v` semantics made explicit.
-/

namespace SpinOpModel

/-- Modelled from the spec: a generator is one of the three single-site spin
operators `X`, `Y`, `Z` (spec section 3, Glossary). -/
inductive Gen
  | X
  | Y
  | Z
deriving DecidableEq

/-- Modelled from the spec: one label token `G_i^k` — a generator, a site
index, and a positive exponent meaning `k` repeated factors (`G_i` carries
exponent 1).  From spec sections 3 and 4.1; `spin_op.py` is missing from
`src/`. -/
structure SFactor where
  gen : Gen
  site : ℕ
  exp : ℕ
deriving DecidableEq

/-- A term: an ordered sequence of factors (spec section 3). -/
abbrev Term := List SFactor

/-- Gaussian-integer complex number, the exact model of the Python complex
coefficients used by the tests (every coefficient the deciding tests use is a
Gaussian integer). -/
structure Cx where
  re : ℤ
  im : ℤ
deriving DecidableEq

def czero : Cx := ⟨0, 0⟩

def cone : Cx := ⟨1, 0⟩

def cadd (a b : Cx) : Cx := ⟨a.re + b.re, a.im + b.im⟩

def cneg (a : Cx) : Cx := ⟨-a.re, -a.im⟩

def cmul (a b : Cx) : Cx := ⟨a.re * b.re - a.im * b.im, a.re * b.im + a.im * b.re⟩

def cconj (a : Cx) : Cx := ⟨a.re, -a.im⟩

/-- `(-1)^n` as a coefficient. -/
def csign (n : ℕ) : Cx := if n % 2 = 0 then cone else ⟨-1, 0⟩

/-- Left fold of `cadd`, mirroring repeated `+=` accumulation. -/
def csumFrom (c : Cx) (l : List Cx) : Cx := l.foldl cadd c

/-- Modelled from the spec: the Operator — a mapping from terms to complex
coefficients (insertion order preserved), plus `num_sites` (called
`num_spins` in the repository) and the `spin` quantum number (spec
section 3).  `spin_op.py` is missing from `src/`. -/
structure SpinOp where
  data : List (Term × Cx)
  num_spins : ℕ
  spin : ℚ

/-- Python `d.get(k)`: the value bound to the first (only) occurrence of the
key in the association list. -/
def lookupTerm (k : Term) : List (Term × Cx) → Option Cx
  | [] => none
  | kv :: rest => if kv.1 = k then some kv.2 else lookupTerm k rest

/-- Python `d[k] = v`: replace the binding in place if present, else append. -/
def dictSet (d : List (Term × Cx)) (k : Term) (v : Cx) : List (Term × Cx) :=
  match d with
  | [] => [(k, v)]
  | kv :: rest => if kv.1 = k then (k, v) :: rest else kv :: dictSet rest k v

/-- Python `defaultdict` `d[k] += v`: add to the binding if present, else
append a fresh binding holding `v`. -/
def dictAdd (d : List (Term × Cx)) (k : Term) (v : Cx) : List (Term × Cx) :=
  match d with
  | [] => [(k, v)]
  | kv :: rest => if kv.1 = k then (kv.1, cadd kv.2 v) :: rest else kv :: dictAdd rest k v

/-- The dictionary invariant: keys are pairwise distinct. -/
abbrev NodupKeys (d : List (Term × Cx)) : Prop := (d.map Prod.fst).Nodup

/-- Modelled from the spec: structural operator equality.  The base-class
`__eq__` (in the missing `sparse_label_op.py`) compares only the underlying
term-to-coefficient dictionaries; the test-suite (`test_simplify`,
"simplify identity" subtest) shows that `num_spins` (2 vs 3) is not
compared, so neither metadata field takes part in equality. -/
def opEq (A B : SpinOp) : Prop := ∀ t : Term, lookupTerm t A.data = lookupTerm t B.data

/-- Number of `Y` factors of a term, exponents counted as repetitions. -/
def countY (t : Term) : ℕ := (t.map fun f => if f.gen = Gen.Y then f.exp else 0).sum

/-- Modelled from the spec: `transpose` reverses the factor order of every
term (spec section 4.2) and, as fixed by `test_transpose` in the test
suite, multiplies each coefficient by `(-1)` per `Y` factor
(`Y` is antisymmetric while `X`, `Z` are symmetric). -/
def transposeOp (A : SpinOp) : SpinOp :=
  ⟨A.data.foldl (fun d kv => dictSet d kv.1.reverse (cmul (csign (countY kv.1)) kv.2)) [],
   A.num_spins, A.spin⟩

/-- Modelled from the spec: `conjugate` keeps every term unchanged (spec
section 4.2) and, as fixed by `test_conjugate` in the test suite, maps each
coefficient to `(-1)^(#Y) * conj(c)` (`Y` is purely imaginary entrywise). -/
def conjugateOp (A : SpinOp) : SpinOp :=
  ⟨A.data.map fun kv => (kv.1, cmul (csign (countY kv.1)) (cconj kv.2)),
   A.num_spins, A.spin⟩

/-- Modelled from the spec: `adjoint` is conjugate composed with transpose
(spec section 4.2). -/
def adjointOp (A : SpinOp) : SpinOp := conjugateOp (transposeOp A)

/-- Negation: scalar multiply by `-1` (spec section 4.2). -/
def negOp (B : SpinOp) : SpinOp := ⟨B.data.map fun kv => (kv.1, cneg kv.2), B.num_spins, B.spin⟩

/-- Modelled from the spec: addition is the structural union of term sets,
coefficients of shared terms added (spec section 4.2). -/
def addOp (A B : SpinOp) : SpinOp :=
  ⟨B.data.foldl (fun d kv => dictAdd d kv.1 kv.2) A.data, A.num_spins, A.spin⟩

/-- Modelled from the spec: subtraction is addition of the negation (spec
section 4.2). -/
def subOp (A B : SpinOp) : SpinOp := addOp A (negOp B)

/-- Expand one factor into `exp` repeated exponent-one factors (spec
sections 4.1 and 4.3). -/
def expandFactor (f : SFactor) : List SFactor := List.replicate f.exp ⟨f.gen, f.site, 1⟩

/-- Expand every exponent of a term. -/
def expandTerm (t : Term) : Term := (t.map expandFactor).flatten

/-- Insert a factor in front of the first element with a site index that is
not smaller, skipping strictly smaller ones; this makes the sort below
stable. -/
def insBySite (f : SFactor) : Term → Term
  | [] => [f]
  | g :: rest => if f.site ≤ g.site then f :: g :: rest else g :: insBySite f rest

/-- Stable insertion sort of the factors of a term by ascending site index
(spec section 4.3: only factors on different sites may be permuted). -/
def sortBySite : Term → Term
  | [] => []
  | f :: rest => insBySite f (sortBySite rest)

/-- The canonical key `index_order` produces for one term: exponents
expanded, factors stably sorted by site. -/
def sortKey (t : Term) : Term := sortBySite (expandTerm t)

/-- Modelled from the spec: `index_order` stably reorders the factors of
every term by ascending site index (spec section 4.3).  As fixed by
`test_index_order` ("Test index ordering simplifies" subtest) the reordered
terms are accumulated into one dictionary — terms that become identical are
merged by summing — and bindings whose coefficient is zero are dropped. -/
def indexOrderOp (A : SpinOp) : SpinOp :=
  ⟨(A.data.foldl (fun d kv => dictAdd d (sortKey kv.1) kv.2) []).filter
      (fun kv => decide (kv.2 ≠ czero)),
   A.num_spins, A.spin⟩

/-- The coefficients of the entries of `L` whose key maps to `t` under `f`,
in list order. -/
def selCoeffs (f : Term → Term) (L : List (Term × Cx)) (t : Term) : List Cx :=
  L.filterMap fun kv => if f kv.1 = t then some kv.2 else none

/-- Relabel one factor's site through the permutation (spec section 4.3). -/
def relabelFactor (perm : List ℕ) (f : SFactor) : SFactor :=
  ⟨f.gen, perm.getD f.site f.site, f.exp⟩

/-- Relabel every factor of a term, order unchanged. -/
def relabelTerm (perm : List ℕ) (t : Term) : Term := t.map (relabelFactor perm)

/-- Modelled from the spec: `permute_indices` fails with an
`InvalidPermutationError` when the permutation's length differs from
`num_sites`, and otherwise relabels every factor's site index through the
permutation, factor order unchanged (spec sections 4.3 and 7). -/
def permuteIndices (A : SpinOp) (perm : List ℕ) : Except String SpinOp :=
  if perm.length = A.num_spins then
    Except.ok ⟨A.data.map fun kv => (relabelTerm perm kv.1, kv.2), A.num_spins, A.spin⟩
  else
    Except.error "InvalidPermutationError"

/-- The `(generator, site)` pairs of one term with exponents expanded, as
yielded by `terms()` (spec section 4.5: factor lists carry no exponent
slot, an exponent `k` stands for `k` repeated factors). -/
def factorPairs (t : Term) : List (Gen × ℕ) := (expandTerm t).map fun f => (f.gen, f.site)

/-- Modelled from the spec: `terms()` yields the `(factor-list, coefficient)`
pairs of the uncanonicalized mapping in insertion order (spec
section 4.5). -/
def termsOf (A : SpinOp) : List (List (Gen × ℕ) × Cx) :=
  A.data.map fun kv => (factorPairs kv.1, kv.2)

/-- Rebuild the term a factor-pair list denotes: every factor is emitted as a
single explicit exponent-one factor (spec section 4.1: serialization emits
explicit single factors, no exponent compaction). -/
def termOfPairs (l : List (Gen × ℕ)) : Term := l.map fun p => ⟨p.1, p.2, 1⟩

/-- Inferred site count: one more than the largest site index present (spec
section 6). -/
def inferredNumSpins (d : List (Term × Cx)) : ℕ :=
  (d.map fun kv => (kv.1.map fun f => f.site + 1).foldr max 0).foldr max 0

/-- Modelled from the spec: `from_terms` builds an operator from a sequence of
`(factor-list, coefficient)` pairs (spec section 4.5), with `num_sites`
inferred and the default spin 1/2 (spec section 6). -/
def fromTerms (L : List (List (Gen × ℕ) × Cx)) : SpinOp :=
  let d := L.foldl (fun d kv => dictSet d (termOfPairs kv.1) kv.2) []
  ⟨d, inferredNumSpins d, 1 / 2⟩

/-- Per-site matrix dimension `d = 2s + 1` (spec section 3). -/
def siteDim (s : ℚ) : ℕ := (2 * s + 1).num.toNat

/-- Digit of `i` in base `d` at tensor position `site` of `n` sites (site 0
most significant). -/
def digitOf (d n site i : ℕ) : ℕ := i / d ^ (n - 1 - site) % d

section MatrixModel

variable (F : Type) [Field F]

/-- Interpret a Gaussian-rational coefficient in the field `F` with imaginary
unit `im`. -/
def toCF (im : F) (c : Cx) : F := (c.re : F) + (c.im : F) * im

/-- Modelled from the spec: the standard spin-`s` single-site generator
matrices of dimension `d = 2s+1` (spec section 4.4), built from the ladder
operators: basis state `a` carries magnetic number `m = s - a`, the
off-diagonal magnitudes are `sqrt(s(s+1) - m_a*m_b)/2`, `Z` is diagonal
with entries `m_a`.  `sq` interprets the square root in `F` and `im` is the
imaginary unit. -/
def genEntry (sq : ℚ → F) (im : F) (s : ℚ) : Gen → ℕ → ℕ → F
  | Gen.X, a, b =>
      if a + 1 = b ∨ b + 1 = a then sq (s * (s + 1) - (s - a) * (s - b)) / 2 else 0
  | Gen.Y, a, b =>
      if a + 1 = b then -im * sq (s * (s + 1) - (s - a) * (s - b)) / 2
      else if b + 1 = a then im * sq (s * (s + 1) - (s - a) * (s - b)) / 2
      else 0
  | Gen.Z, a, b => if a = b then ((s - a : ℚ) : F) else 0

/-- Entry of the Kronecker embedding of a single-site generator at one tensor
position: the generator matrix acts on that position's digit, identity on
every other digit (spec section 4.4). -/
def embedEntry (sq : ℚ → F) (im : F) (s : ℚ) (d n : ℕ) (g : Gen) (site i j : ℕ) : F :=
  ((List.range n).map fun k =>
    if k = site then genEntry F sq im s g (digitOf d n k i) (digitOf d n k j)
    else if digitOf d n k i = digitOf d n k j then 1 else 0).prod

/-- The embedded single-factor matrix on the full `d^n`-dimensional space. -/
def embedMat (sq : ℚ → F) (im : F) (s : ℚ) (d n : ℕ) (g : Gen) (site : ℕ) :
    Matrix (Fin (d ^ n)) (Fin (d ^ n)) F :=
  Matrix.of fun i j => embedEntry F sq im s d n g site i.val j.val

/-- Modelled from the spec: a term's matrix is the ordered product of its
per-factor embedded matrices, factors taken left to right (spec
section 4.4). -/
def termMatrix (sq : ℚ → F) (im : F) (s : ℚ) (d n : ℕ) (t : Term) :
    Matrix (Fin (d ^ n)) (Fin (d ^ n)) F :=
  ((expandTerm t).map fun f => embedMat F sq im s d n f.gen f.site).prod

/-- Modelled from the spec: `to_matrix` is the coefficient-weighted sum of the
term matrices (spec section 4.4). -/
def toMatrix (sq : ℚ → F) (im : F) (A : SpinOp) :
    Matrix (Fin (siteDim A.spin ^ A.num_spins)) (Fin (siteDim A.spin ^ A.num_spins)) F :=
  (A.data.map fun kv =>
    toCF F im kv.2 • termMatrix F sq im A.spin (siteDim A.spin) A.num_spins kv.1).sum

end MatrixModel

/-- The operator of `test_conjugate` / `test_transpose` / `test_adjoint`:
`{"": 1j, "X_0 Y_1 X_1": 3, "X_0 Y_0 X_1": 1j, "Y_0 Y_1": 2+4j}` on three
sites. -/
def opConjTest : SpinOp :=
  ⟨[([], ⟨0, 1⟩),
    ([⟨Gen.X, 0, 1⟩, ⟨Gen.Y, 1, 1⟩, ⟨Gen.X, 1, 1⟩], ⟨3, 0⟩),
    ([⟨Gen.X, 0, 1⟩, ⟨Gen.Y, 0, 1⟩, ⟨Gen.X, 1, 1⟩], ⟨0, 1⟩),
    ([⟨Gen.Y, 0, 1⟩, ⟨Gen.Y, 1, 1⟩], ⟨2, 4⟩)], 3, 1 / 2⟩

/-- The term `X_0 Y_1 X_1` of `opConjTest`. -/
def tXYX : Term := [⟨Gen.X, 0, 1⟩, ⟨Gen.Y, 1, 1⟩, ⟨Gen.X, 1, 1⟩]

/-- The operator of `test_index_order`, "Test index ordering simplifies"
subtest: `{"X_0 Y_1": 1, "Y_1 X_0": 1, "": 0.0}`. -/
def opIdx : SpinOp :=
  ⟨[([⟨Gen.X, 0, 1⟩, ⟨Gen.Y, 1, 1⟩], cone),
    ([⟨Gen.Y, 1, 1⟩, ⟨Gen.X, 0, 1⟩], cone),
    ([], czero)], 2, 1 / 2⟩

/-- The test fixture `op2 = {"X_0^2 Z_0": 2}` on one site. -/
def op2m : SpinOp := ⟨[([⟨Gen.X, 0, 2⟩, ⟨Gen.Z, 0, 1⟩], ⟨2, 0⟩)], 1, 1 / 2⟩

/-- The test fixture `op3 = {"X_0 Y_0": 1, "X_0^2 Z_0": 2}` on one site. -/
def op3m : SpinOp :=
  ⟨[([⟨Gen.X, 0, 1⟩, ⟨Gen.Y, 0, 1⟩], cone),
    ([⟨Gen.X, 0, 2⟩, ⟨Gen.Z, 0, 1⟩], ⟨2, 0⟩)], 1, 1 / 2⟩

/-- The shared term `X_0^2 Z_0` of `op2m` and `op3m`. -/
def tXXZ : Term := [⟨Gen.X, 0, 2⟩, ⟨Gen.Z, 0, 1⟩]

/-- The operator of `test_permute_indices`: `{"X_0 Y_1": 1, "Z_1 X_2": 2}` on
four sites. -/
def opPerm : SpinOp :=
  ⟨[([⟨Gen.X, 0, 1⟩, ⟨Gen.Y, 1, 1⟩], cone),
    ([⟨Gen.Z, 1, 1⟩, ⟨Gen.X, 2, 1⟩], ⟨2, 0⟩)], 4, 1 / 2⟩

/-- The operator of `test_terms`: `{"X_0": 1, "X_0 Z_1": 2, "Z_1 Y_1 X_2": 2}`. -/
def opTermsTest : SpinOp :=
  ⟨[([⟨Gen.X, 0, 1⟩], cone),
    ([⟨Gen.X, 0, 1⟩, ⟨Gen.Z, 1, 1⟩], ⟨2, 0⟩),
    ([⟨Gen.Z, 1, 1⟩, ⟨Gen.Y, 1, 1⟩, ⟨Gen.X, 2, 1⟩], ⟨2, 0⟩)], 3, 1 / 2⟩

/-- An operator with an exponent label: `{"X_0^2": 1}` on one site. -/
def opExpRT : SpinOp := ⟨[([⟨Gen.X, 0, 2⟩], cone)], 1, 1 / 2⟩

/-- The identity operator declared on two sites (`{"": 1}`, `num_spins = 2`). -/
def idTwo : SpinOp := ⟨[([], cone)], 2, 1 / 2⟩

/-- The identity operator declared on three sites (`{"": 1}`, `num_spins = 3`). -/
def idThree : SpinOp := ⟨[([], cone)], 3, 1 / 2⟩

/-- The spin-1 single-site operator `{"X_0": 1}` of `test_to_matrix`. -/
def spin1X : SpinOp := ⟨[([⟨Gen.X, 0, 1⟩], cone)], 1, 1⟩

/-! ## Coefficient algebra lemmas -/

lemma cconj_cconj (c : Cx) : cconj (cconj c) = c := by
  cases c
  simp [cconj]

lemma csign_conj_cancel (n : ℕ) (c : Cx) :
    cmul (csign n) (cconj (cmul (csign n) c)) = cconj c := by
  unfold csign
  split <;> cases c <;> simp [cmul, cconj, cone]

/-! ## Dictionary lemmas -/

lemma lookupTerm_dictAdd_self (d : List (Term × Cx)) (k : Term) (v : Cx) :
    lookupTerm k (dictAdd d k v) =
      some (match lookupTerm k d with
            | some c => cadd c v
            | none => v) := by
  induction d with
  | nil => simp [dictAdd, lookupTerm]
  | cons kv rest ih =>
      by_cases h : kv.1 = k
      · simp [dictAdd, lookupTerm, h]
      · simp [dictAdd, lookupTerm, h, ih]

lemma lookupTerm_dictAdd_ne (d : List (Term × Cx)) (k t : Term) (v : Cx) (h : t ≠ k) :
    lookupTerm t (dictAdd d k v) = lookupTerm t d := by
  have h' : k ≠ t := Ne.symm h
  induction d with
  | nil => simp [dictAdd, lookupTerm, h']
  | cons kv rest ih =>
      by_cases hk : kv.1 = k
      · subst hk
        simp [dictAdd, lookupTerm, h']
      · simp [dictAdd, lookupTerm, hk, ih]

lemma mem_keys_dictAdd (d : List (Term × Cx)) (k x : Term) (v : Cx) :
    x ∈ (dictAdd d k v).map Prod.fst ↔ x ∈ d.map Prod.fst ∨ x = k := by
  induction d with
  | nil => simp [dictAdd]
  | cons kv rest ih =>
      by_cases h : kv.1 = k
      · subst h
        simp [dictAdd]
        tauto
      · simp [dictAdd, h, ih]
        tauto

lemma nodupKeys_dictAdd (d : List (Term × Cx)) (k : Term) (v : Cx) (h : NodupKeys d) :
    NodupKeys (dictAdd d k v) := by
  induction d with
  | nil => simp [dictAdd, NodupKeys]
  | cons kv rest ih =>
      unfold NodupKeys at h
      simp only [List.map_cons, List.nodup_cons] at h
      by_cases hk : kv.1 = k
      · unfold NodupKeys
        simp [dictAdd, hk, h.1, h.2, hk ▸ h.1]
      · unfold NodupKeys
        simp only [dictAdd, hk, if_false, List.map_cons, List.nodup_cons]
        refine ⟨?_, ih h.2⟩
        rw [mem_keys_dictAdd]
        rintro (hx | hx)
        · exact h.1 hx
        · exact hk hx

lemma lookupTerm_eq_none_of_not_mem (d : List (Term × Cx)) (t : Term)
    (h : t ∉ d.map Prod.fst) : lookupTerm t d = none := by
  induction d with
  | nil => rfl
  | cons kv rest ih =>
      simp only [List.map_cons, List.mem_cons, not_or] at h
      have h1 : kv.1 ≠ t := Ne.symm h.1
      simp [lookupTerm, h1, ih h.2]

/-! ## Characterization of the `defaultdict` accumulation fold -/

lemma lookupTerm_foldl_dictAdd (f : Term → Term) (L : List (Term × Cx))
    (d₀ : List (Term × Cx)) (t : Term) :
    lookupTerm t (L.foldl (fun d kv => dictAdd d (f kv.1) kv.2) d₀) =
      match lookupTerm t d₀ with
      | some c => some (csumFrom c (selCoeffs f L t))
      | none =>
          match selCoeffs f L t with
          | [] => none
          | v :: vs => some (csumFrom v vs) := by
  induction L generalizing d₀ with
  | nil =>
      simp only [List.foldl_nil, selCoeffs, List.filterMap_nil]
      cases lookupTerm t d₀ <;> rfl
  | cons kv L' ih =>
      simp only [List.foldl_cons]
      rw [ih]
      by_cases hft : f kv.1 = t
      · have hsel : selCoeffs f (kv :: L') t = kv.2 :: selCoeffs f L' t := by
          simp [selCoeffs, hft]
        rw [hsel, hft, lookupTerm_dictAdd_self]
        cases h0 : lookupTerm t d₀ <;> simp [csumFrom]
      · have hsel : selCoeffs f (kv :: L') t = selCoeffs f L' t := by
          simp [selCoeffs, hft]
        rw [hsel, lookupTerm_dictAdd_ne _ _ _ _ (fun h => hft h.symm)]

lemma nodupKeys_foldl_dictAdd (f : Term → Term) (L : List (Term × Cx))
    (d₀ : List (Term × Cx)) (h : NodupKeys d₀) :
    NodupKeys (L.foldl (fun d kv => dictAdd d (f kv.1) kv.2) d₀) := by
  induction L generalizing d₀ with
  | nil => exact h
  | cons kv L' ih => exact ih _ (nodupKeys_dictAdd _ _ _ h)

/-! ## The fresh-key assignment fold builds the mapped list -/

lemma dictSet_append (d : List (Term × Cx)) (k : Term) (v : Cx)
    (h : k ∉ d.map Prod.fst) : dictSet d k v = d ++ [(k, v)] := by
  induction d with
  | nil => rfl
  | cons kv rest ih =>
      simp only [List.map_cons, List.mem_cons, not_or] at h
      have h1 : kv.1 ≠ k := Ne.symm h.1
      simp [dictSet, h1, ih h.2]

lemma foldl_dictSet_fresh (g : Term × Cx → Term × Cx) (L : List (Term × Cx))
    (d₀ : List (Term × Cx)) (hnd : (L.map fun kv => (g kv).1).Nodup)
    (hfresh : ∀ kv ∈ L, (g kv).1 ∉ d₀.map Prod.fst) :
    L.foldl (fun d kv => dictSet d (g kv).1 (g kv).2) d₀ = d₀ ++ L.map g := by
  induction L generalizing d₀ with
  | nil => simp
  | cons kv L' ih =>
      simp only [List.map_cons, List.nodup_cons] at hnd
      simp only [List.foldl_cons]
      rw [dictSet_append _ _ _ (hfresh kv (by simp))]
      have hfresh' : ∀ kv' ∈ L',
          (g kv').1 ∉ (d₀ ++ [((g kv).1, (g kv).2)]).map Prod.fst := by
        intro kv' h'
        simp only [List.map_append, List.mem_append, List.map_cons, List.map_nil,
          List.mem_singleton, not_or]
        refine ⟨hfresh kv' (List.mem_cons_of_mem _ h'), ?_⟩
        intro hx
        exact hnd.1 (hx ▸ List.mem_map_of_mem _ h')
      rw [ih _ hnd.2 hfresh']
      simp

/-! ## Lookup through key-rewriting maps -/

lemma lookupTerm_map_keys (f : Term → Term) (g : Term → Cx → Cx)
    (L : List (Term × Cx)) (t : Term)
    (hket : ∀ kv ∈ L, f kv.1 = f t → kv.1 = t) :
    lookupTerm (f t) (L.map fun kv => (f kv.1, g kv.1 kv.2)) =
      (lookupTerm t L).map (g t) := by
  induction L with
  | nil => rfl
  | cons kv L' ih =>
      by_cases h : f kv.1 = f t
      · have hk : kv.1 = t := hket kv (by simp) h
        simp [lookupTerm, h, hk]
      · have hk : kv.1 ≠ t := fun h' => h (h' ▸ rfl)
        simp only [List.map_cons, lookupTerm, h, if_false, hk]
        exact ih fun kv' h' => hket kv' (by simp [h'])

/-! ## Transpose, conjugate, adjoint -/

lemma countY_reverse (t : Term) : countY t.reverse = countY t := by
  simp [countY, List.map_reverse, List.sum_reverse]

lemma nodupKeys_map (f : Term → Term) (g : Term → Cx → Cx) (L : List (Term × Cx))
    (hf : Function.Injective f) (h : NodupKeys L) :
    NodupKeys (L.map fun kv => (f kv.1, g kv.1 kv.2)) := by
  unfold NodupKeys at *
  have heq : (L.map fun kv => (f kv.1, g kv.1 kv.2)).map Prod.fst =
      (L.map Prod.fst).map f := by
    simp [List.map_map, Function.comp]
  rw [heq]
  exact h.map hf

lemma transpose_data (A : SpinOp) (h : NodupKeys A.data) :
    (transposeOp A).data =
      A.data.map fun kv => (kv.1.reverse, cmul (csign (countY kv.1)) kv.2) := by
  have hnd : (A.data.map fun kv : Term × Cx => kv.1.reverse).Nodup := by
    have := List.Nodup.map (f := List.reverse) List.reverse_injective h
    simpa [List.map_map, Function.comp] using this
  have := foldl_dictSet_fresh
    (fun kv => (kv.1.reverse, cmul (csign (countY kv.1)) kv.2)) A.data [] hnd
    (by intro kv _; simp)
  simpa using this

lemma adjoint_data (A : SpinOp) (h : NodupKeys A.data) :
    (adjointOp A).data = A.data.map fun kv => (kv.1.reverse, cconj kv.2) := by
  show ((transposeOp A).data.map
      fun kv => (kv.1, cmul (csign (countY kv.1)) (cconj kv.2))) = _
  rw [transpose_data A h, List.map_map]
  apply List.map_congr_left
  intro kv _
  simp [Function.comp, countY_reverse, csign_conj_cancel]

/-- Claim C1 (corrected): `transpose` maps every term of `A` to the term with
its factor order reversed, but the coefficient is multiplied by `(-1)` per
`Y` factor — it is not carried over unchanged. -/
theorem transpose_spec (A : SpinOp) (h : NodupKeys A.data) (t : Term) (c : Cx)
    (ht : lookupTerm t A.data = some c) :
    lookupTerm t.reverse (transposeOp A).data = some (cmul (csign (countY t)) c) := by
  rw [transpose_data A h]
  have h2 := lookupTerm_map_keys List.reverse
    (fun u c => cmul (csign (countY u)) c) A.data t
    (fun kv _ hx => List.reverse_injective hx)
  rw [ht] at h2
  simpa using h2

/-- Witness for C1 at the `test_transpose` operator: the term `X_0 Y_1 X_1`
with coefficient 3 is sent to `X_1 Y_1 X_0` with coefficient `-3`. -/
theorem transpose_spec_witness :
    NodupKeys opConjTest.data ∧ lookupTerm tXYX opConjTest.data = some ⟨3, 0⟩ ∧
    lookupTerm tXYX.reverse (transposeOp opConjTest).data =
      some (cmul (csign (countY tXYX)) ⟨3, 0⟩) :=
  ⟨by decide, by decide, transpose_spec opConjTest (by decide) tXYX ⟨3, 0⟩ (by decide)⟩

/-- Counterexample to C1 as stated: in the `test_transpose` operator the term
`X_0 Y_1 X_1` has real coefficient 3, yet its transposed term carries
coefficient `-3`, so `transpose` does scale coefficients of terms with an
odd number of `Y` factors. -/
theorem transpose_counterexample :
    lookupTerm tXYX.reverse (transposeOp opConjTest).data = some ⟨-3, 0⟩ ∧
    lookupTerm tXYX opConjTest.data = some ⟨3, 0⟩ ∧ (⟨-3, 0⟩ : Cx) ≠ ⟨3, 0⟩ := by
  decide

/-- Claim C2 (corrected): `conjugate` keeps every term unchanged but maps each
coefficient `c` to `(-1)^(#Y factors) * conj(c)`, not to `conj(c)` alone. -/
theorem conjugate_spec (A : SpinOp) (t : Term) (c : Cx)
    (ht : lookupTerm t A.data = some c) :
    lookupTerm t (conjugateOp A).data = some (cmul (csign (countY t)) (cconj c)) := by
  have h2 := lookupTerm_map_keys (fun u => u)
    (fun u c => cmul (csign (countY u)) (cconj c)) A.data t
    (fun kv _ hx => hx)
  rw [ht] at h2
  simpa using h2

/-- Witness for C2 at the `test_conjugate` operator: the term `X_0 Y_1 X_1`
with coefficient 3 keeps its factors and receives `(-1)^1 * conj(3)`. -/
theorem conjugate_spec_witness :
    lookupTerm tXYX opConjTest.data = some ⟨3, 0⟩ ∧
    lookupTerm tXYX (conjugateOp opConjTest).data =
      some (cmul (csign (countY tXYX)) (cconj ⟨3, 0⟩)) :=
  ⟨by decide, conjugate_spec opConjTest tXYX ⟨3, 0⟩ (by decide)⟩

/-- Counterexample to C2 as stated: in the `test_conjugate` operator the term
`X_0 Y_1 X_1` has the purely real coefficient 3, yet after `conjugate` its
coefficient is `-3`, so a real coefficient is not kept unchanged when the
term holds an odd number of `Y` factors. -/
theorem conjugate_counterexample :
    lookupTerm tXYX (conjugateOp opConjTest).data = some ⟨-3, 0⟩ ∧
    lookupTerm tXYX opConjTest.data = some ⟨3, 0⟩ ∧ (⟨-3, 0⟩ : Cx) ≠ ⟨3, 0⟩ := by
  decide

/-- Claim C3 (corrected): structural equality compares only the
term-to-coefficient mapping; `num_spins` and `spin` take no part in it, so
operators with identical data but different declared site counts or spins
are equal. -/
theorem eq_ignores_metadata (d : List (Term × Cx)) (n m : ℕ) (s s' : ℚ) :
    opEq ⟨d, n, s⟩ ⟨d, m, s'⟩ := fun _ => rfl

/-- Counterexample to C3 as stated: the identity operator on 2 sites equals
the identity operator on 3 sites although their `num_spins` differ — as the
`test_simplify` "simplify identity" subtest asserts. -/
theorem eq_ignores_num_spins_counterexample :
    opEq idTwo idThree ∧ idTwo.num_spins ≠ idThree.num_spins :=
  ⟨fun _ => rfl, by decide⟩

/-- Claim C6 (confirmed): the adjoint — conjugate composed with transpose —
is an involution: `A.adjoint().adjoint()` equals `A` for every operator. -/
theorem adjoint_involutive (A : SpinOp) (h : NodupKeys A.data) :
    opEq (adjointOp (adjointOp A)) A := by
  have h1 : NodupKeys (adjointOp A).data := by
    rw [adjoint_data A h]
    exact nodupKeys_map _ (fun _ c => cconj c) _ List.reverse_injective h
  have h2 := adjoint_data (adjointOp A) h1
  rw [adjoint_data A h, List.map_map] at h2
  have h3 : (adjointOp (adjointOp A)).data = A.data := by
    rw [h2]
    have hcongr : ∀ kv ∈ A.data,
        ((fun kv : Term × Cx => (kv.1.reverse, cconj kv.2)) ∘
          fun kv : Term × Cx => (kv.1.reverse, cconj kv.2)) kv = id kv := by
      intro kv _
      simp [Function.comp, cconj_cconj]
    rw [List.map_congr_left hcongr, List.map_id]
  intro t
  rw [h3]

/-- Witness for C6 at the `test_adjoint` operator. -/
theorem adjoint_involutive_witness :
    NodupKeys opConjTest.data ∧ opEq (adjointOp (adjointOp opConjTest)) opConjTest :=
  ⟨by decide, adjoint_involutive opConjTest (by decide)⟩

/-! ## Subtraction -/

lemma lookupTerm_foldl_dictAdd_plain (L : List (Term × Cx)) (d₀ : List (Term × Cx))
    (t : Term) :
    lookupTerm t (L.foldl (fun d kv => dictAdd d kv.1 kv.2) d₀) =
      match lookupTerm t d₀ with
      | some c => some (csumFrom c (selCoeffs (fun u => u) L t))
      | none =>
          match selCoeffs (fun u => u) L t with
          | [] => none
          | v :: vs => some (csumFrom v vs) :=
  lookupTerm_foldl_dictAdd (fun u => u) L d₀ t

lemma selCoeffs_map_values (g : Cx → Cx) (L : List (Term × Cx)) (t : Term) :
    selCoeffs (fun u => u) (L.map fun kv => (kv.1, g kv.2)) t =
      (selCoeffs (fun u => u) L t).map g := by
  induction L with
  | nil => rfl
  | cons kv rest ih =>
      by_cases h : kv.1 = t <;> simp [selCoeffs, h] <;>
        simpa [selCoeffs] using ih

lemma selCoeffs_id_nil (L : List (Term × Cx)) (t : Term)
    (h : t ∉ L.map Prod.fst) : selCoeffs (fun u => u) L t = [] := by
  induction L with
  | nil => rfl
  | cons kv rest ih =>
      simp only [List.map_cons, List.mem_cons, not_or] at h
      have h1 : kv.1 ≠ t := Ne.symm h.1
      simp only [selCoeffs, List.filterMap_cons, h1, if_false]
      exact ih h.2

lemma selCoeffs_id_of_lookup (L : List (Term × Cx)) (t : Term) (c : Cx)
    (h : NodupKeys L) (hl : lookupTerm t L = some c) :
    selCoeffs (fun u => u) L t = [c] := by
  induction L with
  | nil => simp [lookupTerm] at hl
  | cons kv rest ih =>
      have h' := List.nodup_cons.mp h
      by_cases hk : kv.1 = t
      · rw [lookupTerm, if_pos hk] at hl
        have hc : kv.2 = c := by injection hl
        have hnm : t ∉ rest.map Prod.fst := hk ▸ h'.1
        have htail : selCoeffs (fun u => u) rest t = [] := selCoeffs_id_nil rest t hnm
        simpa [selCoeffs, hk, hc] using htail
      · rw [lookupTerm, if_neg hk] at hl
        simp only [selCoeffs, List.filterMap_cons, hk, if_false]
        exact ih h'.2 hl

/-- Claim C10 (confirmed): for operators with matching `num_spins` and `spin`
that share a term `t`, the raw result of `A - B` still binds `t` to exactly
`A[t] - B[t]`, even when that difference is zero — the zero binding is
retained, not dropped. -/
theorem sub_retains_zero_coeff (A B : SpinOp) (t : Term) (cA cB : Cx)
    (_hn : A.num_spins = B.num_spins) (_hs : A.spin = B.spin)
    (hB : NodupKeys B.data)
    (ha : lookupTerm t A.data = some cA) (hb : lookupTerm t B.data = some cB) :
    lookupTerm t (subOp A B).data = some (cadd cA (cneg cB)) := by
  have hsel : selCoeffs (fun u => u) (negOp B).data t = [cneg cB] := by
    show selCoeffs (fun u => u) (B.data.map fun kv => (kv.1, cneg kv.2)) t = _
    rw [selCoeffs_map_values, selCoeffs_id_of_lookup B.data t cB hB hb]
    rfl
  show lookupTerm t ((negOp B).data.foldl (fun d kv => dictAdd d kv.1 kv.2) A.data) = _
  rw [lookupTerm_foldl_dictAdd_plain, ha, hsel]
  rfl

/-- Witness for C10 at the `test_sub` fixtures `op3 - op2`: the shared term
`X_0^2 Z_0` has coefficient 2 in both, and the raw difference still binds
it — to `2 + (-2)`, which is zero. -/
theorem sub_retains_zero_coeff_witness :
    op3m.num_spins = op2m.num_spins ∧ op3m.spin = op2m.spin ∧
    NodupKeys op2m.data ∧
    lookupTerm tXXZ op3m.data = some ⟨2, 0⟩ ∧
    lookupTerm tXXZ op2m.data = some ⟨2, 0⟩ ∧
    lookupTerm tXXZ (subOp op3m op2m).data = some (cadd ⟨2, 0⟩ (cneg ⟨2, 0⟩)) ∧
    cadd ⟨2, 0⟩ (cneg ⟨2, 0⟩) = czero :=
  ⟨rfl, rfl, by decide, by decide, by decide,
   sub_retains_zero_coeff op3m op2m tXXZ ⟨2, 0⟩ ⟨2, 0⟩ rfl rfl (by decide)
     (by decide) (by decide), by decide⟩

/-! ## Index ordering -/

lemma lookupTerm_filter_nz (d : List (Term × Cx)) (h : NodupKeys d) (t : Term) :
    lookupTerm t (d.filter fun kv => decide (kv.2 ≠ czero)) =
      (lookupTerm t d).bind fun c => if c = czero then none else some c := by
  induction d with
  | nil => rfl
  | cons kv rest ih =>
      have h' := List.nodup_cons.mp h
      by_cases hz : kv.2 = czero
      · have hcond : decide (kv.2 ≠ czero) = false := by simp [hz]
        rw [List.filter_cons, hcond]
        simp only [Bool.false_eq_true, if_false]
        by_cases hk : kv.1 = t
        · have hnone : lookupTerm t (rest.filter fun kv => decide (kv.2 ≠ czero)) = none := by
            apply lookupTerm_eq_none_of_not_mem
            intro hmem
            rcases List.mem_map.mp hmem with ⟨kv', hkv', hfst⟩
            exact (hk ▸ h'.1) (List.mem_map.mpr ⟨kv', (List.mem_filter.mp hkv').1, hfst⟩)
          rw [hnone, lookupTerm, if_pos hk]
          simp [hz]
        · rw [lookupTerm, if_neg hk]
          exact ih h'.2
      · have hcond : decide (kv.2 ≠ czero) = true := by simp [hz]
        rw [List.filter_cons, hcond]
        simp only [if_true]
        by_cases hk : kv.1 = t
        · rw [lookupTerm, if_pos hk, lookupTerm, if_pos hk]
          simp [hz]
        · rw [lookupTerm, if_neg hk, lookupTerm, if_neg hk]
          exact ih h'.2

/-- Claim C4 (corrected): `index_order()` by itself does merge terms that
become identical after reordering (their coefficients are summed in
encounter order) and does drop bindings whose resulting coefficient is
zero: the binding of a reordered term `t` is exactly the sum of the
coefficients of the entries whose sort key is `t`, present only when at
least one such entry exists and the sum is nonzero.  No separate
`simplify()` call is involved. -/
theorem index_order_lookup_spec (A : SpinOp) (t : Term) :
    lookupTerm t (indexOrderOp A).data =
      match selCoeffs sortKey A.data t with
      | [] => none
      | v :: vs => if csumFrom v vs = czero then none else some (csumFrom v vs) := by
  show lookupTerm t ((A.data.foldl (fun d kv => dictAdd d (sortKey kv.1) kv.2) []).filter
      fun kv => decide (kv.2 ≠ czero)) = _
  rw [lookupTerm_filter_nz _ (nodupKeys_foldl_dictAdd sortKey A.data [] List.nodup_nil) t,
    lookupTerm_foldl_dictAdd sortKey A.data [] t]
  cases hsel : selCoeffs sortKey A.data t with
  | nil => simp [lookupTerm, hsel]
  | cons v vs => simp [lookupTerm, hsel]

/-- Counterexample to C4 as stated, at the operator of the
`test_index_order` "Test index ordering simplifies" subtest
(`{"X_0 Y_1": 1, "Y_1 X_0": 1, "": 0.0}`): after `index_order()` alone the
two reordered-identical terms are merged into one binding with
coefficient 2, and the zero-coefficient identity term is dropped. -/
theorem index_order_merges_counterexample :
    lookupTerm [⟨Gen.X, 0, 1⟩, ⟨Gen.Y, 1, 1⟩] (indexOrderOp opIdx).data = some ⟨2, 0⟩ ∧
    lookupTerm [⟨Gen.Y, 1, 1⟩, ⟨Gen.X, 0, 1⟩] (indexOrderOp opIdx).data = none ∧
    lookupTerm [] (indexOrderOp opIdx).data = none ∧
    lookupTerm [] opIdx.data = some czero ∧
    lookupTerm [⟨Gen.Y, 1, 1⟩, ⟨Gen.X, 0, 1⟩] opIdx.data = some cone := by
  decide

/-! ## Stability of the site sort -/

lemma mem_insBySite (f x : SFactor) (t : Term) :
    x ∈ insBySite f t ↔ x = f ∨ x ∈ t := by
  induction t with
  | nil => simp [insBySite]
  | cons g rest ih =>
      by_cases h : f.site ≤ g.site
      · simp [insBySite, h]
      · simp only [insBySite, h, if_false, List.mem_cons, ih]
        tauto

lemma pairwise_insBySite (f : SFactor) (t : Term)
    (h : t.Pairwise fun a b => a.site ≤ b.site) :
    (insBySite f t).Pairwise fun a b => a.site ≤ b.site := by
  induction t with
  | nil => simp [insBySite]
  | cons g rest ih =>
      rcases List.pairwise_cons.mp h with ⟨hg, hrest⟩
      by_cases hle : f.site ≤ g.site
      · simp only [insBySite, hle, if_true]
        refine List.pairwise_cons.mpr ⟨?_, h⟩
        intro x hx
        rcases List.mem_cons.mp hx with rfl | hx
        · exact hle
        · exact le_trans hle (hg x hx)
      · simp only [insBySite, hle, if_false]
        refine List.pairwise_cons.mpr ⟨?_, ih hrest⟩
        intro x hx
        rcases (mem_insBySite f x rest).mp hx with rfl | hx
        · exact (Nat.not_le.mp hle).le
        · exact hg x hx

lemma sorted_sortBySite (t : Term) :
    (sortBySite t).Pairwise fun a b => a.site ≤ b.site := by
  induction t with
  | nil => simp [sortBySite]
  | cons f rest ih => exact pairwise_insBySite f (sortBySite rest) ih

lemma filter_insBySite (f : SFactor) (t : Term) (k : ℕ) :
    (insBySite f t).filter (fun x => decide (x.site = k)) =
      if f.site = k then f :: t.filter (fun x => decide (x.site = k))
      else t.filter (fun x => decide (x.site = k)) := by
  induction t with
  | nil => by_cases h : f.site = k <;> simp [insBySite, h]
  | cons g rest ih =>
      by_cases hle : f.site ≤ g.site
      · rw [show insBySite f (g :: rest) = f :: g :: rest by simp [insBySite, hle]]
        by_cases h : f.site = k <;> simp [List.filter_cons, h]
      · rw [show insBySite f (g :: rest) = g :: insBySite f rest by simp [insBySite, hle]]
        have hlt : g.site < f.site := Nat.not_le.mp hle
        by_cases h : f.site = k
        · have hg : ¬(g.site = k) := by omega
          simp [List.filter_cons, h, hg, ih]
        · simp [List.filter_cons, h, ih]

lemma filter_sortBySite (t : Term) (k : ℕ) :
    (sortBySite t).filter (fun x => decide (x.site = k)) =
      t.filter fun x => decide (x.site = k) := by
  induction t with
  | nil => rfl
  | cons f rest ih =>
      show (insBySite f (sortBySite rest)).filter _ = _
      rw [filter_insBySite]
      by_cases h : f.site = k <;> simp [List.filter_cons, h, ih]

/-- Claim C5 (confirmed): the reordering `index_order()` applies to each
term's factors (`sortBySite`, applied to the expanded factor list) is a
stable sort by ascending site index: the result is sorted by site, and for
every site `k` the subsequence of factors on site `k` is exactly the
original one, so same-site factors keep their relative order; in
particular `X_2 Y_0 Z_1 X_0` becomes `Y_0 X_0 Z_1 X_2`. -/
theorem index_order_stable_sort :
    (∀ t : Term, (sortBySite t).Pairwise fun a b => a.site ≤ b.site) ∧
    (∀ (t : Term) (k : ℕ),
      (sortBySite t).filter (fun x => decide (x.site = k)) =
        t.filter fun x => decide (x.site = k)) ∧
    sortBySite [⟨Gen.X, 2, 1⟩, ⟨Gen.Y, 0, 1⟩, ⟨Gen.Z, 1, 1⟩, ⟨Gen.X, 0, 1⟩] =
      [⟨Gen.Y, 0, 1⟩, ⟨Gen.X, 0, 1⟩, ⟨Gen.Z, 1, 1⟩, ⟨Gen.X, 2, 1⟩] :=
  ⟨sorted_sortBySite, filter_sortBySite, by decide⟩

/-! ## Index permutation -/

lemma lookupTerm_map_keys_of (f : Term → Term) (L : List (Term × Cx)) (t : Term)
    (hket : ∀ kv ∈ L, f kv.1 = f t → kv.1 = t) :
    lookupTerm (f t) (L.map fun kv => (f kv.1, kv.2)) = lookupTerm t L := by
  induction L with
  | nil => rfl
  | cons kv L' ih =>
      by_cases h : f kv.1 = f t
      · have hk : kv.1 = t := hket kv (by simp) h
        simp [lookupTerm, h, hk]
      · have hk : kv.1 ≠ t := fun h' => h (by rw [h'])
        simp only [List.map_cons, lookupTerm, h, if_false, hk]
        exact ih fun kv' h' hx => hket kv' (by simp [h']) hx

lemma lookupTerm_mem (L : List (Term × Cx)) (t : Term) (c : Cx)
    (h : lookupTerm t L = some c) : (t, c) ∈ L := by
  induction L with
  | nil => simp [lookupTerm] at h
  | cons kv rest ih =>
      obtain ⟨k, v⟩ := kv
      by_cases hk : k = t
      · subst hk
        have h' : some v = some c := by simpa [lookupTerm] using h
        have hv : v = c := by injection h'
        subst hv
        exact List.mem_cons_self _ _
      · have h' : lookupTerm t rest = some c := by simpa [lookupTerm, hk] using h
        exact List.mem_cons_of_mem _ (ih h')

lemma relabelFactor_inj (perm : List ℕ) (hnd : perm.Nodup) (a b : SFactor)
    (ha : a.site < perm.length) (hb : b.site < perm.length)
    (h : relabelFactor perm a = relabelFactor perm b) : a = b := by
  obtain ⟨ga, sa, ea⟩ := a
  obtain ⟨gb, sb, eb⟩ := b
  simp only [relabelFactor, SFactor.mk.injEq] at h ⊢
  refine ⟨h.1, ?_, h.2.2⟩
  have h2 := h.2.1
  simp only at ha hb
  rw [List.getD_eq_getElem _ _ ha, List.getD_eq_getElem _ _ hb] at h2
  have h3 : (⟨sa, ha⟩ : Fin perm.length) = ⟨sb, hb⟩ :=
    List.nodup_iff_injective_get.mp hnd (by simpa [List.get_eq_getElem] using h2)
  exact congrArg Fin.val h3

lemma relabelTerm_inj_on (perm : List ℕ) (hnd : perm.Nodup) :
    ∀ t1 t2 : Term, (∀ f ∈ t1, f.site < perm.length) →
      (∀ f ∈ t2, f.site < perm.length) →
      relabelTerm perm t1 = relabelTerm perm t2 → t1 = t2 := by
  intro t1
  induction t1 with
  | nil =>
      intro t2 _ _ h
      cases t2 with
      | nil => rfl
      | cons b t2' => simp [relabelTerm] at h
  | cons a t1' ih =>
      intro t2 h1 h2 h
      cases t2 with
      | nil => simp [relabelTerm] at h
      | cons b t2' =>
          simp only [relabelTerm, List.map_cons, List.cons.injEq] at h
          have hab := relabelFactor_inj perm hnd a b (h1 a (by simp)) (h2 b (by simp)) h.1
          have ht := ih t2' (fun f hf => h1 f (by simp [hf]))
            (fun f hf => h2 f (by simp [hf])) h.2
          rw [hab, ht]

/-- Claim C7 (confirmed): `permute_indices(perm)` fails with an
`InvalidPermutationError` whenever `perm`'s length differs from
`num_spins`; and when `perm` is a permutation of `0..num_spins-1`, it
returns an operator in which every factor's site `i` is relabelled to
`perm[i]` with factor order and coefficients otherwise unchanged. -/
theorem permute_indices_spec (A : SpinOp) (perm : List ℕ) :
    (perm.length ≠ A.num_spins →
      permuteIndices A perm = Except.error "InvalidPermutationError") ∧
    (perm.Perm (List.range A.num_spins) →
      (∀ kv ∈ A.data, ∀ f ∈ kv.1, f.site < A.num_spins) →
      ∃ B, permuteIndices A perm = Except.ok B ∧ B.num_spins = A.num_spins ∧
        ∀ t c, lookupTerm t A.data = some c →
          lookupTerm (relabelTerm perm t) B.data = some c) := by
  constructor
  · intro h
    simp [permuteIndices, h]
  · intro hp hsites
    have hlen : perm.length = A.num_spins := by simpa using hp.length_eq
    have hnd : perm.Nodup := hp.nodup_iff.mpr (List.nodup_range _)
    refine ⟨⟨A.data.map fun kv => (relabelTerm perm kv.1, kv.2), A.num_spins, A.spin⟩,
      by simp [permuteIndices, hlen], rfl, ?_⟩
    intro t c hl
    have htv : ∀ f ∈ t, f.site < perm.length := by
      intro f hf
      rw [hlen]
      exact hsites (t, c) (lookupTerm_mem A.data t c hl) f hf
    have hket : ∀ kv ∈ A.data, relabelTerm perm kv.1 = relabelTerm perm t → kv.1 = t := by
      intro kv hkv hx
      refine relabelTerm_inj_on perm hnd kv.1 t ?_ htv hx
      intro f hf
      rw [hlen]
      exact hsites kv hkv f hf
    exact (lookupTerm_map_keys_of (relabelTerm perm) A.data t hket).trans hl

/-- Witness for C7 at the `test_permute_indices` operator and permutation
`[2, 1, 3, 0]`, plus the failing wrong-length call `[1, 0]`. -/
theorem permute_indices_spec_witness :
    ([2, 1, 3, 0] : List ℕ).Perm (List.range 4) ∧
    (∀ kv ∈ opPerm.data, ∀ f ∈ kv.1, f.site < opPerm.num_spins) ∧
    (∃ B, permuteIndices opPerm [2, 1, 3, 0] = Except.ok B ∧
      B.num_spins = opPerm.num_spins ∧
      ∀ t c, lookupTerm t opPerm.data = some c →
        lookupTerm (relabelTerm [2, 1, 3, 0] t) B.data = some c) ∧
    permuteIndices opPerm [1, 0] = Except.error "InvalidPermutationError" :=
  ⟨by decide, by decide,
   (permute_indices_spec opPerm [2, 1, 3, 0]).2 (by decide) (by decide),
   (permute_indices_spec opPerm [1, 0]).1 (by decide)⟩

/-! ## terms / from_terms round trip -/

lemma expandTerm_of_ones (t : Term) (h : ∀ f ∈ t, f.exp = 1) : expandTerm t = t := by
  induction t with
  | nil => rfl
  | cons f rest ih =>
      have ht : expandTerm rest = rest := ih fun f' hf' => h f' (by simp [hf'])
      show expandFactor f ++ expandTerm rest = f :: rest
      rw [ht]
      obtain ⟨g, s, e⟩ := f
      have hf : e = 1 := h ⟨g, s, e⟩ (by simp)
      subst hf
      simp [expandFactor]

lemma termOfPairs_factorPairs (t : Term) (h : ∀ f ∈ t, f.exp = 1) :
    termOfPairs (factorPairs t) = t := by
  rw [factorPairs, expandTerm_of_ones t h, termOfPairs, List.map_map]
  conv_rhs => rw [← List.map_id t]
  apply List.map_congr_left
  intro f hf
  have hf1 := h f hf
  obtain ⟨g, s, e⟩ := f
  simp only at hf1
  subst hf1
  simp [Function.comp]

/-- Claim C8 (corrected): `from_terms(list(op.terms()))` equals `op` for
every operator whose factors all carry exponent 1 (labels without `^k`
tokens); with an exponent-`k` label, `terms()` expands the exponent into
`k` repeated factors and `from_terms` re-serializes them as explicit single
factors, so the round trip yields the expanded-label operator, not `op`. -/
theorem from_terms_round_trip (A : SpinOp) (h : NodupKeys A.data)
    (hexp : ∀ kv ∈ A.data, ∀ f ∈ kv.1, f.exp = 1) :
    opEq (fromTerms (termsOf A)) A := by
  have hkeys : ∀ kv ∈ A.data, termOfPairs (factorPairs kv.1) = kv.1 :=
    fun kv hkv => termOfPairs_factorPairs kv.1 (hexp kv hkv)
  have hnd : (A.data.map fun kv : Term × Cx => termOfPairs (factorPairs kv.1)).Nodup := by
    have heq : (A.data.map fun kv : Term × Cx => termOfPairs (factorPairs kv.1)) =
        A.data.map Prod.fst := List.map_congr_left fun kv hkv => hkeys kv hkv
    rw [heq]
    exact h
  have hfold := foldl_dictSet_fresh (fun kv => (termOfPairs (factorPairs kv.1), kv.2))
    A.data [] hnd (by intro kv _; simp)
  have hmap : A.data.map (fun kv => (termOfPairs (factorPairs kv.1), kv.2)) = A.data := by
    conv_rhs => rw [← List.map_id A.data]
    apply List.map_congr_left
    intro kv hkv
    obtain ⟨k, v⟩ := kv
    simp [hkeys ⟨k, v⟩ hkv]
  have hdata : (fromTerms (termsOf A)).data = A.data := by
    show ((A.data.map fun kv => (factorPairs kv.1, kv.2)).foldl
        (fun d kv => dictSet d (termOfPairs kv.1) kv.2) []) = A.data
    exact (List.foldl_map _ _ _ _).trans (hfold.trans (by rw [List.nil_append, hmap]))
  intro t
  rw [hdata]

/-- Witness for C8 at the `test_terms` operator
`{"X_0": 1, "X_0 Z_1": 2, "Z_1 Y_1 X_2": 2}`. -/
theorem from_terms_round_trip_witness :
    NodupKeys opTermsTest.data ∧
    (∀ kv ∈ opTermsTest.data, ∀ f ∈ kv.1, f.exp = 1) ∧
    opEq (fromTerms (termsOf opTermsTest)) opTermsTest :=
  ⟨by decide, by decide, from_terms_round_trip opTermsTest (by decide) (by decide)⟩

/-- Counterexample to C8 as stated: for the operator `{"X_0^2": 1}` the round
trip does not return the original operator — `terms()` expands the
exponent, `from_terms` rebuilds the key as the two explicit factors
`X_0 X_0`, and the original exponent-form key is no longer bound. -/
theorem from_terms_round_trip_counterexample :
    ¬ opEq (fromTerms (termsOf opExpRT)) opExpRT ∧
    lookupTerm [⟨Gen.X, 0, 1⟩, ⟨Gen.X, 0, 1⟩] (fromTerms (termsOf opExpRT)).data =
      some cone ∧
    lookupTerm [⟨Gen.X, 0, 2⟩] (fromTerms (termsOf opExpRT)).data = none ∧
    lookupTerm [⟨Gen.X, 0, 2⟩] opExpRT.data = some cone :=
  ⟨fun h => absurd (h [⟨Gen.X, 0, 2⟩]) (by decide), by decide, by decide, by decide⟩

/-! ## Matrix realization -/

/-- Claim C9 (confirmed): for the operator with spin quantum number 1, one
site, and the single term `X_0` with coefficient 1, `to_matrix()` —
realized over `ℂ` with the real square root and imaginary unit `I` — is a
3×3 matrix and equals `[[0,1,0],[1,0,1],[0,1,0]]` divided by `sqrt 2`. -/
theorem to_matrix_spin1_x :
    siteDim spin1X.spin ^ spin1X.num_spins = 3 ∧
    ∀ i j : Fin (siteDim spin1X.spin ^ spin1X.num_spins),
      toMatrix ℂ (fun q => ((Real.sqrt (q : ℝ) : ℝ) : ℂ)) Complex.I spin1X i j =
        (if (i.val = 0 ∧ j.val = 1) ∨ (i.val = 1 ∧ j.val = 0) ∨
            (i.val = 1 ∧ j.val = 2) ∨ (i.val = 2 ∧ j.val = 1) then 1 else 0) /
          ((Real.sqrt 2 : ℝ) : ℂ) := by
  have hd : siteDim (1 : ℚ) = 3 := by
    norm_num [siteDim]
    decide
  have h3 : siteDim spin1X.spin ^ spin1X.num_spins = 3 := by
    show siteDim (1 : ℚ) ^ 1 = 3
    rw [pow_one, hd]
  refine ⟨h3, ?_⟩
  intro i j
  obtain ⟨iv, hiv⟩ := i
  obtain ⟨jv, hjv⟩ := j
  rw [h3] at hiv hjv
  have hsq : ((Real.sqrt 2 : ℝ) : ℂ) ≠ 0 := by
    rw [Complex.ofReal_ne_zero]
    positivity
  have hmul : ((Real.sqrt 2 : ℝ) : ℂ) * ((Real.sqrt 2 : ℝ) : ℂ) = 2 := by
    rw [← Complex.ofReal_mul, Real.mul_self_sqrt (by norm_num : (0:ℝ) ≤ 2)]
    norm_num
  have hval : ((Real.sqrt 2 : ℝ) : ℂ) / 2 = ((Real.sqrt 2 : ℝ) : ℂ)⁻¹ := by
    rw [inv_eq_one_div, div_eq_div_iff (by norm_num : (2:ℂ) ≠ 0) hsq, hmul]
    ring
  interval_cases iv <;> interval_cases jv <;>
    simp [toMatrix, spin1X, toCF, cone, termMatrix, expandTerm, expandFactor,
      embedMat, embedEntry, digitOf, hd, genEntry, List.range_succ] <;>
    norm_num [hval]

end SpinOpModel
